import Mathlib

/-!
Shallow embedding of the virtual-DOM element module
(`src/virtual_dom/node/el.rs`) of the seed repository.

The file `el.rs` defines the generic element type `El<Ms>` together with its
builder API, its custom `Clone` and `PartialEq` implementations, message
remapping (`map_msg`) and the HTML-import bridge (`from_html`).  The types it
consumes (`Tag`, `At`, `AtValue`, `Attrs`, `Style`, `Listener`, `Text`,
`Node`, `Namespace`, `LifecycleHooks`, `web_sys::Node`) live outside the
repository slice, so they are modelled from the specification, as plain data.
Machine-level details that cannot influence the verified properties (string
interning, `Cow` ownership) are erased: a Rust `String`/`Cow<str>` is a Lean
`String`, a `Vec` is a `List`, an `IndexMap` is an association list whose
well-formed values have pairwise distinct keys.
-/

namespace VDom

/-- Modelled from the spec: the external `Tag` enum of markup tag names, with
a custom-tag variant (`Tag::Custom`) and ordinary named tags. -/
inductive Tag : Type where
  | Custom (name : String)
  | Std (name : String)
  deriving DecidableEq

/-- Modelled from the spec: the external attribute-key enum `At`; the special
"class" key (`At::Class`) is distinguished, every other key is carried by
name. -/
inductive At : Type where
  | Class
  | Other (name : String)
  deriving DecidableEq

/-- Modelled from the spec: the external attribute-value enum `AtValue`
(`Some(String)`, `Ignored`, `None`). -/
inductive AtValue : Type where
  | Some (s : String)
  | Ignored
  | None
  deriving DecidableEq

/-- Modelled from the spec: the external `Attrs` container, an insertion-order
map (`IndexMap<At, AtValue>`) embedded as an association list; well-formed
values have pairwise distinct keys. -/
structure Attrs : Type where
  vals : List (At × AtValue)
  deriving DecidableEq

/-- Modelled from the spec: the external `Style` container, a map from style
property names to style values, embedded as an association list. -/
structure Style : Type where
  vals : List (String × String)
  deriving DecidableEq

/-- Modelled from the spec: the external `Namespace` enum (e.g. the SVG
namespace). -/
inductive Namespace : Type where
  | Svg
  | OtherNs (name : String)
  deriving DecidableEq

/-- Modelled from the spec: the external `Listener<Ms>` type, a binding from
an event trigger to a message payload.  The callback is represented by the
message value it produces; per the spec only the trigger takes part in
equality. -/
structure Listener (Ms : Type) : Type where
  trigger : String
  message : Ms
  deriving DecidableEq

/-- Modelled from the spec: the external `LifecycleHooks<Ms>` container,
opaque storage of message-producing mount/update/unmount callbacks with its
own remap operation; represented by the messages its callbacks produce. -/
structure LifecycleHooks (Ms : Type) : Type where
  msgs : List Ms
  deriving DecidableEq

/-- `LifecycleHooks::new()`: empty hook storage. -/
def LifecycleHooks.new {Ms : Type} : LifecycleHooks Ms := ⟨[]⟩

/-- Modelled from the spec: `LifecycleHooks::map_msg` remaps every message
produced by the stored callbacks through `f`. -/
def LifecycleHooks.map_msg {Ms Ms2 : Type} (f : Ms → Ms2) (h : LifecycleHooks Ms) :
    LifecycleHooks Ms2 :=
  ⟨h.msgs.map f⟩

/-- Modelled from the spec: the sibling `Text` node variant, carrying its
text and its optional live (web-sys) handle.  Live document-node references
are opaque; they are embedded as `Option Nat` handle identifiers. -/
structure Text : Type where
  text : String
  nodeWs : Option Nat
  deriving DecidableEq

/-- Modelled from the spec: `Text::new`, a fresh text node with no live
handle. -/
def Text.new (s : String) : Text := ⟨s, Option.none⟩

mutual

/-- The element type `El<Ms>` of `el.rs`: tag, attributes, style, listeners,
children, optional live web-sys handle (`node_ws`), optional namespace and
lifecycle hooks.  (`namespace` is a Lean keyword, so that field is called
`nmspace`.) -/
inductive El (Ms : Type) : Type where
  | mk (tag : Tag) (attrs : Attrs) (style : Style)
       (listeners : List (Listener Ms)) (children : List (Node Ms))
       (nodeWs : Option Nat) (nmspace : Option Namespace)
       (hooks : LifecycleHooks Ms)

/-- Modelled from the spec: the sibling `Node<Ms>` sum type with `Element`,
`Text` and `Empty` variants. -/
inductive Node (Ms : Type) : Type where
  | element (el : El Ms)
  | text (t : Text)
  | empty

end

variable {Ms Ms2 : Type}

/-- Field projection `self.tag`. -/
def El.tag : El Ms → Tag
  | .mk t _ _ _ _ _ _ _ => t

/-- Field projection `self.attrs`. -/
def El.attrs : El Ms → Attrs
  | .mk _ a _ _ _ _ _ _ => a

/-- Field projection `self.style`. -/
def El.style : El Ms → Style
  | .mk _ _ s _ _ _ _ _ => s

/-- Field projection `self.listeners`. -/
def El.listeners : El Ms → List (Listener Ms)
  | .mk _ _ _ l _ _ _ _ => l

/-- Field projection `self.children`. -/
def El.children : El Ms → List (Node Ms)
  | .mk _ _ _ _ c _ _ _ => c

/-- Field projection `self.node_ws`. -/
def El.nodeWs : El Ms → Option Nat
  | .mk _ _ _ _ _ n _ _ => n

/-- Field projection `self.namespace`. -/
def El.nmspace : El Ms → Option Namespace
  | .mk _ _ _ _ _ _ n _ => n

/-- Field projection `self.hooks`. -/
def El.hooks : El Ms → LifecycleHooks Ms
  | .mk _ _ _ _ _ _ _ h => h

/-- `Attrs::empty()`. -/
def Attrs.empty : Attrs := ⟨[]⟩

/-- `Style::empty()`. -/
def Style.empty : Style := ⟨[]⟩

/-- `El::empty(tag)`: an element with the given tag and every other field at
its empty/default value (`el.rs` lines 69-80). -/
def El.empty (tag : Tag) : El Ms :=
  .mk tag Attrs.empty Style.empty [] [] Option.none Option.none LifecycleHooks.new

/-- Modelled from the spec: `Listener::map_msg` keeps the declared trigger and
composes the user function with the message-producing callback, so the payload
the listener produces is passed through `f`. -/
def Listener.map_msg (f : Ms → Ms2) (l : Listener Ms) : Listener Ms2 :=
  ⟨l.trigger, f l.message⟩

mutual

/-- `MessageMapper::map_msg` for `El` (`el.rs` lines 38-57): same tag, attrs,
style, `node_ws` and namespace; listeners mapped through `Listener::map_msg`,
children remapped recursively, hooks remapped through
`LifecycleHooks::map_msg`. -/
def El.map_msg (f : Ms → Ms2) : El Ms → El Ms2
  | .mk tag attrs style listeners children nodeWs nmspace hooks =>
      .mk tag attrs style (listeners.map (Listener.map_msg f))
        (Node.mapMsgList f children) nodeWs nmspace (hooks.map_msg f)

/-- Modelled from the spec: `Node::map_msg` dispatches on the variant; text
and empty nodes carry no messages. -/
def Node.map_msg (f : Ms → Ms2) : Node Ms → Node Ms2
  | .element el => .element (el.map_msg f)
  | .text t => .text t
  | .empty => .empty

/-- The `children.into_iter().map(|c| c.map_msg(f.clone())).collect()` loop of
`El::map_msg`. -/
def Node.mapMsgList (f : Ms → Ms2) : List (Node Ms) → List (Node Ms2)
  | [] => []
  | n :: ns => n.map_msg f :: Node.mapMsgList f ns

end

mutual

/-- `impl Clone for El` (`el.rs` lines 218-231): tag, attrs, style, children,
`node_ws`, listeners and namespace are cloned, hooks are reset to
`LifecycleHooks::new()`.  Cloning of the external leaf values is the identity
in this pure embedding. -/
def El.clone : El Ms → El Ms
  | .mk tag attrs style listeners children nodeWs nmspace _ =>
      .mk tag attrs style listeners (Node.cloneList children)
        nodeWs nmspace LifecycleHooks.new

/-- Modelled from the spec: the derived `Clone` of `Node`, cloning elements
through the custom `El::clone`. -/
def Node.clone : Node Ms → Node Ms
  | .element el => .element el.clone
  | .text t => .text t
  | .empty => .empty

/-- `Vec::clone` on the child list: element-wise clone. -/
def Node.cloneList : List (Node Ms) → List (Node Ms)
  | [] => []
  | n :: ns => n.clone :: Node.cloneList ns

end

/-- Modelled from the spec: `Text::strip_ws_node`, clearing the text node's
live handle. -/
def Text.strip_ws_node (t : Text) : Text := ⟨t.text, Option.none⟩

mutual

/-- `El::strip_ws_nodes_from_self_and_children` (`el.rs` lines 198-203):
`self.node_ws.take()` then recurse into every child. -/
def El.strip_ws_nodes_from_self_and_children : El Ms → El Ms
  | .mk tag attrs style listeners children _ nmspace hooks =>
      .mk tag attrs style listeners (Node.stripWsList children)
        Option.none nmspace hooks

/-- Modelled from the spec: `Node::strip_ws_nodes_from_self_and_children`
dispatches on the variant. -/
def Node.strip_ws_nodes_from_self_and_children : Node Ms → Node Ms
  | .element el => .element el.strip_ws_nodes_from_self_and_children
  | .text t => .text t.strip_ws_node
  | .empty => .empty

/-- The `for child in &mut self.children` loop of the strip operation. -/
def Node.stripWsList : List (Node Ms) → List (Node Ms)
  | [] => []
  | n :: ns => n.strip_ws_nodes_from_self_and_children :: Node.stripWsList ns

end

/-- `Node::is_text` (used by `replace_text`): true exactly on the `Text`
variant. -/
def Node.is_text : Node Ms → Bool
  | .text _ => true
  | _ => false

/-- Modelled from the spec: `Node::new_text`, a fresh `Text` child node. -/
def Node.new_text (s : String) : Node Ms := .text (Text.new s)

/-- `El::add_child` (`el.rs` lines 124-127): push onto `children`. -/
def El.add_child (el : El Ms) (element : Node Ms) : El Ms :=
  match el with
  | .mk tag attrs style listeners children nodeWs nmspace hooks =>
      .mk tag attrs style listeners (children ++ [element]) nodeWs nmspace hooks

/-- `El::add_text` (`el.rs` lines 173-176): push a new text child. -/
def El.add_text (el : El Ms) (s : String) : El Ms :=
  match el with
  | .mk tag attrs style listeners children nodeWs nmspace hooks =>
      .mk tag attrs style listeners (children ++ [Node.text (Text.new s)])
        nodeWs nmspace hooks

/-- `El::replace_text` (`el.rs` lines 180-184):
`self.children.retain(|node| !node.is_text())` then push a new text child. -/
def El.replace_text (el : El Ms) (s : String) : El Ms :=
  match el with
  | .mk tag attrs style listeners children nodeWs nmspace hooks =>
      .mk tag attrs style listeners
        ((children.filter fun node => !(Node.is_text node)) ++ [Node.new_text s])
        nodeWs nmspace hooks

/-- `El::get_text` (`el.rs` lines 187-195): filter-map the direct children to
the text of the `Text` ones and collect into one string. -/
def El.get_text (el : El Ms) : String :=
  String.join (el.children.filterMap fun child =>
    match child with
    | Node.text textNode => Option.some textNode.text
    | _ => Option.none)

/-- The `IndexMap::entry(key).and_modify(g).or_insert(ins)` call used by
`El::add_class`: if the key is present its value is rewritten in place by
`g`, otherwise `(key, ins)` is appended. -/
def entryAndModifyOrInsert (k : At) (g : AtValue → AtValue) (ins : AtValue) :
    List (At × AtValue) → List (At × AtValue)
  | [] => [(k, ins)]
  | (k2, v) :: rest =>
      if k2 = k then (k2, g v) :: rest
      else (k2, v) :: entryAndModifyOrInsert k g ins rest

/-- The `and_modify` closure of `El::add_class` (`el.rs` lines 147-155): on
`AtValue::Some(v)` append `" "` when `v` is non-empty and then append `name`;
on any other variant overwrite with `AtValue::Some(name)`. -/
def classAndModify (name : String) : AtValue → AtValue
  | AtValue.Some v => AtValue.Some ((if v.isEmpty then v else v ++ " ") ++ name)
  | _ => AtValue.Some name

/-- `El::add_class` (`el.rs` lines 142-158). -/
def El.add_class (el : El Ms) (name : String) : El Ms :=
  match el with
  | .mk tag attrs style listeners children nodeWs nmspace hooks =>
      .mk tag
        ⟨entryAndModifyOrInsert At.Class (classAndModify name)
          (AtValue.Some name) attrs.vals⟩
        style listeners children nodeWs nmspace hooks

/-- Association-list lookup, the embedding of `IndexMap::get`. -/
def indexMapGet {κ ν : Type} [DecidableEq κ] (k : κ) : List (κ × ν) → Option ν
  | [] => Option.none
  | (k2, v) :: rest => if k2 = k then Option.some v else indexMapGet k rest

/-- `IndexMap::eq`: same length, and every key-value pair of the left map is
found by lookup in the right map. -/
def indexMapBeq {κ ν : Type} [DecidableEq κ] [DecidableEq ν]
    (a b : List (κ × ν)) : Bool :=
  decide (a.length = b.length) &&
    a.all fun kv => decide (indexMapGet kv.1 b = Option.some kv.2)

/-- `IndexMap::get` on `Attrs`. -/
def lookupAt (k : At) (l : List (At × AtValue)) : Option AtValue :=
  indexMapGet k l

/-- `IndexMap::eq` on `Attrs`. -/
def Attrs.beq (a b : Attrs) : Bool := indexMapBeq a.vals b.vals

/-- `IndexMap::eq` on `Style`. -/
def Style.beq (a b : Style) : Bool := indexMapBeq a.vals b.vals

/-- Modelled from the spec: `PartialEq` of the external `Listener` compares
only the event trigger, never the callback. -/
def Listener.beqTrigger (a b : Listener Ms) : Bool :=
  decide (a.trigger = b.trigger)

/-- `Vec::eq` on listener lists: equal length and element-wise trigger
equality. -/
def listenersBeq : List (Listener Ms) → List (Listener Ms) → Bool
  | [], [] => true
  | a :: as2, b :: bs2 => a.beqTrigger b && listenersBeq as2 bs2
  | _, _ => false

/-- `impl PartialEq for El` (`el.rs` lines 233-243): compare tag, attrs,
style, listeners (triggers only) and namespace; children and `node_ws` are
not compared. -/
def El.beq (a b : El Ms) : Bool :=
  decide (a.tag = b.tag) && Attrs.beq a.attrs b.attrs &&
    Style.beq a.style b.style && listenersBeq a.listeners b.listeners &&
    decide (a.nmspace = b.nmspace)

mutual

/-- Deep structural equality of elements up to lifecycle hooks: tag,
attributes, style, the full listener list (trigger and payload), live handle
and namespace are compared field by field, and the children are compared
recursively with the same relation at every depth; only the `hooks` fields
are skipped.  This is the strongest equality the custom `Clone` can preserve,
since the recursive clone resets the hooks of every descendant. -/
def El.deepEqSkipHooks [DecidableEq Ms] : El Ms → El Ms → Bool
  | .mk t1 a1 s1 l1 c1 n1 ns1 _, .mk t2 a2 s2 l2 c2 n2 ns2 _ =>
      decide (t1 = t2) && decide (a1 = a2) && decide (s1 = s2) &&
        decide (l1 = l2) && Node.deepEqSkipHooksList c1 c2 &&
        decide (n1 = n2) && decide (ns1 = ns2)

/-- Deep structural equality of nodes up to lifecycle hooks: text and empty
nodes are compared in full. -/
def Node.deepEqSkipHooks [DecidableEq Ms] : Node Ms → Node Ms → Bool
  | .element a, .element b => El.deepEqSkipHooks a b
  | .text a, .text b => decide (a = b)
  | .empty, .empty => true
  | _, _ => false

/-- Deep structural equality of child lists up to lifecycle hooks. -/
def Node.deepEqSkipHooksList [DecidableEq Ms] :
    List (Node Ms) → List (Node Ms) → Bool
  | [], [] => true
  | a :: as2, b :: bs2 =>
      Node.deepEqSkipHooks a b && Node.deepEqSkipHooksList as2 bs2
  | _, _ => false

end

mutual

/-- Observer: the message payloads of all listeners in the tree, in
depth-first order (own listeners first, then the children's). -/
def El.listenerMsgs : El Ms → List Ms
  | .mk _ _ _ listeners children _ _ _ =>
      listeners.map Listener.message ++ Node.listenerMsgsList children

/-- Observer: listener payloads of a node. -/
def Node.listenerMsgs : Node Ms → List Ms
  | .element el => el.listenerMsgs
  | .text _ => []
  | .empty => []

/-- Observer: listener payloads of a child list. -/
def Node.listenerMsgsList : List (Node Ms) → List Ms
  | [] => []
  | n :: ns => n.listenerMsgs ++ Node.listenerMsgsList ns

end

mutual

/-- Observer: the declared triggers of all listeners in the tree, in
depth-first order. -/
def El.listenerTriggers : El Ms → List String
  | .mk _ _ _ listeners children _ _ _ =>
      listeners.map Listener.trigger ++ Node.listenerTriggersList children

/-- Observer: listener triggers of a node. -/
def Node.listenerTriggers : Node Ms → List String
  | .element el => el.listenerTriggers
  | .text _ => []
  | .empty => []

/-- Observer: listener triggers of a child list. -/
def Node.listenerTriggersList : List (Node Ms) → List String
  | [] => []
  | n :: ns => n.listenerTriggers ++ Node.listenerTriggersList ns

end

mutual

/-- Observer: the number of listeners in the whole tree. -/
def El.countListeners : El Ms → Nat
  | .mk _ _ _ listeners children _ _ _ =>
      listeners.length + Node.countListenersList children

/-- Observer: number of listeners in a node. -/
def Node.countListeners : Node Ms → Nat
  | .element el => el.countListeners
  | .text _ => 0
  | .empty => 0

/-- Observer: number of listeners in a child list. -/
def Node.countListenersList : List (Node Ms) → Nat
  | [] => 0
  | n :: ns => n.countListeners + Node.countListenersList ns

end

mutual

/-- Observer: `true` iff the element and, recursively, every descendant node
report no live handle. -/
def El.noWsDeep : El Ms → Bool
  | .mk _ _ _ _ children nodeWs _ _ =>
      decide (nodeWs = Option.none) && Node.noWsDeepList children

/-- Observer: no live handle anywhere in a node. -/
def Node.noWsDeep : Node Ms → Bool
  | .element el => el.noWsDeep
  | .text t => decide (t.nodeWs = Option.none)
  | .empty => true

/-- Observer: no live handle anywhere in a child list. -/
def Node.noWsDeepList : List (Node Ms) → Bool
  | [] => true
  | n :: ns => n.noWsDeep && Node.noWsDeepList ns

end

/-- Modelled from the spec: the kinds of live node the external parsing
facility can hand back when walking `wrapper.child_nodes()` — renderable
nodes the bridge recognises, and unrecognized kinds such as comments. -/
inductive WsParsedNode : Type where
  | element (tag : String) (txt : String)
  | comment (s : String)
  deriving DecidableEq

/-- Modelled from the spec: the external bridge
`virtual_dom_bridge::node_from_ws`, converting a live node into a tree node
and returning no value for unrecognized kinds (e.g. comments). -/
def node_from_ws : WsParsedNode → Option (Node Ms)
  | .element tag txt =>
      Option.some (.element ((El.empty (Tag.Std tag)).add_text txt))
  | .comment _ => Option.none

/-- `El::from_html` (`el.rs` lines 100-121).  The external parsing facility
(`document().create_element`, `set_inner_html`, `child_nodes`) is a black
box, so its output — the wrapper's realized child-node list, in document
order — is the input here; the source's `for i in 0..children.length()`
loop over `children.get(i)` pushing every bridged node is kept as written. -/
def El.from_html (parsed : List WsParsedNode) : List (Node Ms) :=
  (List.range parsed.length).foldl
    (fun result i =>
      match parsed[i]? with
      | Option.some child =>
          match node_from_ws child with
          | Option.some childVdom => result ++ [childVdom]
          | Option.none => result
      | Option.none => result)
    []

/-- Modelled from the spec: the document fragment the external parser
produces for `"<span>hi</span><!-- c -->"` — a span element followed by a
comment node, in document order. -/
def parsedSpanComment : List WsParsedNode :=
  [WsParsedNode.element "span" "hi", WsParsedNode.comment " c "]

/-- Restatement of the specification's description of `get_text` ("concatenates
the text content of all direct Text children, in order, with no separator;
ignores non-text children"), written independently of the source's
filter-map-collect pipeline, to be compared with `El.get_text`. -/
def El.getTextSpec (el : El Ms) : String :=
  el.children.foldl
    (fun acc child =>
      acc ++
        match child with
        | Node.text t => t.text
        | _ => "")
    ""

/-- Concrete element with one listener, a live handle and non-empty lifecycle
hooks, used to evaluate the clone semantics. -/
def exElListener : El Nat :=
  .mk (Tag.Std "div") Attrs.empty Style.empty
    [⟨"click", 0⟩]
    [Node.text (Text.new "a")]
    (Option.some 7) Option.none ⟨[5]⟩

/-! ## Helper lemmas -/

theorem El.tag_mk (t : Tag) (a : Attrs) (s : Style) (l : List (Listener Ms))
    (c : List (Node Ms)) (n : Option Nat) (ns : Option Namespace)
    (h : LifecycleHooks Ms) : (El.mk t a s l c n ns h).tag = t := rfl

theorem El.attrs_mk (t : Tag) (a : Attrs) (s : Style) (l : List (Listener Ms))
    (c : List (Node Ms)) (n : Option Nat) (ns : Option Namespace)
    (h : LifecycleHooks Ms) : (El.mk t a s l c n ns h).attrs = a := rfl

theorem El.style_mk (t : Tag) (a : Attrs) (s : Style) (l : List (Listener Ms))
    (c : List (Node Ms)) (n : Option Nat) (ns : Option Namespace)
    (h : LifecycleHooks Ms) : (El.mk t a s l c n ns h).style = s := rfl

theorem El.listeners_mk (t : Tag) (a : Attrs) (s : Style)
    (l : List (Listener Ms)) (c : List (Node Ms)) (n : Option Nat)
    (ns : Option Namespace) (h : LifecycleHooks Ms) :
    (El.mk t a s l c n ns h).listeners = l := rfl

theorem El.children_mk (t : Tag) (a : Attrs) (s : Style)
    (l : List (Listener Ms)) (c : List (Node Ms)) (n : Option Nat)
    (ns : Option Namespace) (h : LifecycleHooks Ms) :
    (El.mk t a s l c n ns h).children = c := rfl

theorem El.nodeWs_mk (t : Tag) (a : Attrs) (s : Style)
    (l : List (Listener Ms)) (c : List (Node Ms)) (n : Option Nat)
    (ns : Option Namespace) (h : LifecycleHooks Ms) :
    (El.mk t a s l c n ns h).nodeWs = n := rfl

theorem El.nmspace_mk (t : Tag) (a : Attrs) (s : Style)
    (l : List (Listener Ms)) (c : List (Node Ms)) (n : Option Nat)
    (ns : Option Namespace) (h : LifecycleHooks Ms) :
    (El.mk t a s l c n ns h).nmspace = ns := rfl

theorem El.hooks_mk (t : Tag) (a : Attrs) (s : Style)
    (l : List (Listener Ms)) (c : List (Node Ms)) (n : Option Nat)
    (ns : Option Namespace) (h : LifecycleHooks Ms) :
    (El.mk t a s l c n ns h).hooks = h := rfl

attribute [simp] El.tag_mk El.attrs_mk El.style_mk El.listeners_mk
  El.children_mk El.nodeWs_mk El.nmspace_mk El.hooks_mk

section IndexMapLemmas

variable {κ ν : Type} [DecidableEq κ]

/-- Under the unique-keys invariant, `IndexMap::get` finds a pair exactly
when it is in the list. -/
theorem indexMapGet_eq_some_iff {b : List (κ × ν)} {k : κ} {v : ν}
    (hb : (b.map Prod.fst).Nodup) :
    indexMapGet k b = Option.some v ↔ (k, v) ∈ b := by
  induction b with
  | nil => simp [indexMapGet]
  | cons hd tl ih =>
    obtain ⟨k2, w⟩ := hd
    simp only [List.map_cons, List.nodup_cons] at hb
    by_cases hkk : k2 = k
    · subst hkk
      simp only [indexMapGet, List.mem_cons]
      rw [if_pos trivial]
      constructor
      · intro hv
        injection hv with hv
        subst hv
        exact Or.inl rfl
      · rintro (hv | hv)
        · simp only [Prod.mk.injEq, true_and] at hv
          subst hv
          rfl
        · exact absurd (List.mem_map_of_mem Prod.fst hv) hb.1
    · simp only [indexMapGet, List.mem_cons]
      rw [if_neg hkk, ih hb.2]
      constructor
      · intro hv; exact Or.inr hv
      · rintro (hv | hv)
        · exact absurd (congrArg Prod.fst hv.symm) hkk
        · exact hv

/-- Under the unique-keys invariant on both sides, `IndexMap::eq` is
equivalent to the two maps holding the same key-value pairs (a permutation of
association lists). -/
theorem indexMapBeq_iff_perm [DecidableEq ν] {a b : List (κ × ν)}
    (ha : (a.map Prod.fst).Nodup) (hb : (b.map Prod.fst).Nodup) :
    indexMapBeq a b = true ↔ a.Perm b := by
  constructor
  · intro h
    simp only [indexMapBeq, Bool.and_eq_true, decide_eq_true_eq,
      List.all_eq_true] at h
    obtain ⟨hlen, hall⟩ := h
    have hsub : a ⊆ b := by
      intro kv hkv
      have := hall kv hkv
      exact (indexMapGet_eq_some_iff hb).mp this
    have hnodup : a.Nodup := ha.of_map Prod.fst
    exact (List.subperm_of_subset hnodup hsub).perm_of_length_le (le_of_eq hlen.symm)
  · intro h
    simp only [indexMapBeq, Bool.and_eq_true, decide_eq_true_eq,
      List.all_eq_true]
    refine ⟨h.length_eq, fun kv hkv => ?_⟩
    have : kv ∈ b := h.mem_iff.mp hkv
    exact (indexMapGet_eq_some_iff hb).mpr this

/-- `IndexMap::eq` is reflexive on well-formed maps. -/
theorem indexMapBeq_refl [DecidableEq ν] {a : List (κ × ν)}
    (ha : (a.map Prod.fst).Nodup) :
    indexMapBeq a a = true :=
  (indexMapBeq_iff_perm ha ha).mpr (List.Perm.refl a)

end IndexMapLemmas

/-- Listener-list equality (`Vec::eq` with trigger-only `Listener::eq`) holds
exactly when the trigger sequences agree. -/
theorem listenersBeq_iff {as2 bs2 : List (Listener Ms)} :
    listenersBeq as2 bs2 = true ↔
      as2.map Listener.trigger = bs2.map Listener.trigger := by
  induction as2 generalizing bs2 with
  | nil => cases bs2 <;> simp [listenersBeq]
  | cons a tl ih =>
    cases bs2 with
    | nil => simp [listenersBeq]
    | cons b tlb =>
      simp [listenersBeq, Listener.beqTrigger, ih, Bool.and_eq_true,
        decide_eq_true_eq]

/-- Listener-list equality is reflexive. -/
theorem listenersBeq_refl (l : List (Listener Ms)) : listenersBeq l l = true :=
  listenersBeq_iff.mpr rfl

mutual

theorem map_msg_listenerMsgs_el (f : Ms → Ms2) :
    ∀ (el : El Ms), (el.map_msg f).listenerMsgs = el.listenerMsgs.map f
  | .mk _ _ _ l c _ _ _ => by
      simp [El.map_msg, El.listenerMsgs, Listener.map_msg,
        map_msg_listenerMsgs_list f c, Function.comp]

theorem map_msg_listenerMsgs_node (f : Ms → Ms2) :
    ∀ (n : Node Ms), (n.map_msg f).listenerMsgs = n.listenerMsgs.map f
  | .element el => by
      simp [Node.map_msg, Node.listenerMsgs, map_msg_listenerMsgs_el f el]
  | .text _ => by simp [Node.map_msg, Node.listenerMsgs]
  | .empty => by simp [Node.map_msg, Node.listenerMsgs]

theorem map_msg_listenerMsgs_list (f : Ms → Ms2) :
    ∀ (ns : List (Node Ms)),
      Node.listenerMsgsList (Node.mapMsgList f ns) =
        (Node.listenerMsgsList ns).map f
  | [] => by simp [Node.mapMsgList, Node.listenerMsgsList]
  | n :: ns => by
      simp [Node.mapMsgList, Node.listenerMsgsList,
        map_msg_listenerMsgs_node f n, map_msg_listenerMsgs_list f ns]

end

mutual

theorem map_msg_listenerTriggers_el (f : Ms → Ms2) :
    ∀ (el : El Ms), (el.map_msg f).listenerTriggers = el.listenerTriggers
  | .mk _ _ _ l c _ _ _ => by
      simp [El.map_msg, El.listenerTriggers, Listener.map_msg,
        map_msg_listenerTriggers_list f c, Function.comp]

theorem map_msg_listenerTriggers_node (f : Ms → Ms2) :
    ∀ (n : Node Ms), (n.map_msg f).listenerTriggers = n.listenerTriggers
  | .element el => by
      simp [Node.map_msg, Node.listenerTriggers,
        map_msg_listenerTriggers_el f el]
  | .text _ => by simp [Node.map_msg, Node.listenerTriggers]
  | .empty => by simp [Node.map_msg, Node.listenerTriggers]

theorem map_msg_listenerTriggers_list (f : Ms → Ms2) :
    ∀ (ns : List (Node Ms)),
      Node.listenerTriggersList (Node.mapMsgList f ns) =
        Node.listenerTriggersList ns
  | [] => by simp [Node.mapMsgList, Node.listenerTriggersList]
  | n :: ns => by
      simp [Node.mapMsgList, Node.listenerTriggersList,
        map_msg_listenerTriggers_node f n, map_msg_listenerTriggers_list f ns]

end

mutual

theorem countListeners_eq_length_msgs_el :
    ∀ (el : El Ms), el.countListeners = el.listenerMsgs.length
  | .mk _ _ _ l c _ _ _ => by
      simp [El.countListeners, El.listenerMsgs,
        countListeners_eq_length_msgs_list c]

theorem countListeners_eq_length_msgs_node :
    ∀ (n : Node Ms), n.countListeners = n.listenerMsgs.length
  | .element el => by
      simp [Node.countListeners, Node.listenerMsgs,
        countListeners_eq_length_msgs_el el]
  | .text _ => by simp [Node.countListeners, Node.listenerMsgs]
  | .empty => by simp [Node.countListeners, Node.listenerMsgs]

theorem countListeners_eq_length_msgs_list :
    ∀ (ns : List (Node Ms)),
      Node.countListenersList ns = (Node.listenerMsgsList ns).length
  | [] => by simp [Node.countListenersList, Node.listenerMsgsList]
  | n :: ns => by
      simp [Node.countListenersList, Node.listenerMsgsList,
        countListeners_eq_length_msgs_node n,
        countListeners_eq_length_msgs_list ns]

end

mutual

theorem strip_noWsDeep_el :
    ∀ (el : El Ms), (el.strip_ws_nodes_from_self_and_children).noWsDeep = true
  | .mk _ _ _ _ c _ _ _ => by
      simp [El.strip_ws_nodes_from_self_and_children, El.noWsDeep,
        strip_noWsDeep_list c]

theorem strip_noWsDeep_node :
    ∀ (n : Node Ms), (n.strip_ws_nodes_from_self_and_children).noWsDeep = true
  | .element el => by
      simp [Node.strip_ws_nodes_from_self_and_children, Node.noWsDeep,
        strip_noWsDeep_el el]
  | .text t => by
      simp [Node.strip_ws_nodes_from_self_and_children, Node.noWsDeep,
        Text.strip_ws_node]
  | .empty => by
      simp [Node.strip_ws_nodes_from_self_and_children, Node.noWsDeep]

theorem strip_noWsDeep_list :
    ∀ (ns : List (Node Ms)),
      Node.noWsDeepList (Node.stripWsList ns) = true
  | [] => by simp [Node.stripWsList, Node.noWsDeepList]
  | n :: ns => by
      simp [Node.stripWsList, Node.noWsDeepList, strip_noWsDeep_node n,
        strip_noWsDeep_list ns]

end

mutual

theorem strip_idem_el :
    ∀ (el : El Ms),
      (el.strip_ws_nodes_from_self_and_children).strip_ws_nodes_from_self_and_children =
        el.strip_ws_nodes_from_self_and_children
  | .mk _ _ _ _ c _ _ _ => by
      simp [El.strip_ws_nodes_from_self_and_children, strip_idem_list c]

theorem strip_idem_node :
    ∀ (n : Node Ms),
      (n.strip_ws_nodes_from_self_and_children).strip_ws_nodes_from_self_and_children =
        n.strip_ws_nodes_from_self_and_children
  | .element el => by
      simp [Node.strip_ws_nodes_from_self_and_children, strip_idem_el el]
  | .text t => by
      simp [Node.strip_ws_nodes_from_self_and_children, Text.strip_ws_node]
  | .empty => by simp [Node.strip_ws_nodes_from_self_and_children]

theorem strip_idem_list :
    ∀ (ns : List (Node Ms)),
      Node.stripWsList (Node.stripWsList ns) = Node.stripWsList ns
  | [] => by simp [Node.stripWsList]
  | n :: ns => by
      simp [Node.stripWsList, strip_idem_node n, strip_idem_list ns]

end

mutual

theorem clone_deepEq_el [DecidableEq Ms] :
    ∀ (el : El Ms), El.deepEqSkipHooks el.clone el = true
  | .mk t a s l c n ns h => by
      simp [El.clone, El.deepEqSkipHooks, clone_deepEq_list c]

theorem clone_deepEq_node [DecidableEq Ms] :
    ∀ (n : Node Ms), Node.deepEqSkipHooks n.clone n = true
  | .element el => by
      simp [Node.clone, Node.deepEqSkipHooks, clone_deepEq_el el]
  | .text t => by simp [Node.clone, Node.deepEqSkipHooks]
  | .empty => by simp [Node.clone, Node.deepEqSkipHooks]

theorem clone_deepEq_list [DecidableEq Ms] :
    ∀ (ns : List (Node Ms)),
      Node.deepEqSkipHooksList (Node.cloneList ns) ns = true
  | [] => by simp [Node.cloneList, Node.deepEqSkipHooksList]
  | n :: ns => by
      simp [Node.cloneList, Node.deepEqSkipHooksList, clone_deepEq_node n,
        clone_deepEq_list ns]

end

/-- Looking up the key just passed through
`entry(k).and_modify(g).or_insert(ins)` gives `g` of the old value when the
key was present, and `ins` otherwise. -/
theorem indexMapGet_entryAndModifyOrInsert (k : At) (g : AtValue → AtValue)
    (ins : AtValue) (l : List (At × AtValue)) :
    indexMapGet k (entryAndModifyOrInsert k g ins l) =
      Option.some
        (match indexMapGet k l with
         | Option.some v => g v
         | Option.none => ins) := by
  induction l with
  | nil => simp [entryAndModifyOrInsert, indexMapGet]
  | cons hd tl ih =>
    obtain ⟨k2, v⟩ := hd
    by_cases hkk : k2 = k
    · simp [entryAndModifyOrInsert, indexMapGet, hkk]
    · simp [entryAndModifyOrInsert, indexMapGet, hkk, ih]

/-- Folding string append from any accumulator splits off the accumulator. -/
theorem string_foldl_append (l : List String) (a : String) :
    l.foldl (fun r s => r ++ s) a = a ++ l.foldl (fun r s => r ++ s) "" := by
  induction l generalizing a with
  | nil => simp [String.append_empty]
  | cons hd tl ih =>
    simp only [List.foldl_cons]
    rw [ih (a ++ hd), ih ("" ++ hd), String.empty_append,
      String.append_assoc]

/-- `String::join` distributes over cons. -/
theorem string_join_cons (a : String) (l : List String) :
    String.join (a :: l) = a ++ String.join l := by
  simp only [String.join, List.foldl_cons]
  rw [string_foldl_append l ("" ++ a), String.empty_append]

/-- The bounded index loop of `from_html` visits exactly the first `k` parsed
nodes and collects the bridged ones in order. -/
theorem from_html_loop_eq (parsed : List (WsParsedNode)) (k : Nat)
    (acc : List (Node Ms)) :
    (List.range k).foldl
      (fun result i =>
        match parsed[i]? with
        | Option.some child =>
            match node_from_ws child with
            | Option.some childVdom => result ++ [childVdom]
            | Option.none => result
        | Option.none => result)
      acc =
      acc ++ (parsed.take k).filterMap node_from_ws := by
  induction k generalizing acc with
  | zero => simp
  | succ k ih =>
    rw [List.range_succ, List.foldl_append, ih]
    simp only [List.foldl_cons, List.foldl_nil, List.take_succ,
      List.filterMap_append]
    cases hk : parsed[k]? with
    | none => simp
    | some child =>
      cases hc : (@node_from_ws Ms) child with
      | none => simp [hc, List.filterMap]
      | some childVdom => simp [hc, List.filterMap]

/-- Remapping does not change the number of children. -/
theorem mapMsgList_length (f : Ms → Ms2) (ns : List (Node Ms)) :
    (Node.mapMsgList f ns).length = ns.length := by
  induction ns with
  | nil => simp [Node.mapMsgList]
  | cons n ns ih => simp [Node.mapMsgList, ih]

/-- Folding the `get_text` accumulation from any accumulator splits off the
accumulator and yields the joined text of the text children. -/
theorem getText_foldl (ch : List (Node Ms)) (acc : String) :
    ch.foldl
      (fun acc child =>
        acc ++
          match child with
          | Node.text t => t.text
          | _ => "")
      acc =
      acc ++
        String.join (ch.filterMap fun child =>
          match child with
          | Node.text t => Option.some t.text
          | _ => Option.none) := by
  induction ch generalizing acc with
  | nil => simp [String.join, String.append_empty]
  | cons hd tl ih =>
    cases hd with
    | text t =>
        simp only [List.foldl_cons, List.filterMap_cons]
        rw [ih (acc ++ t.text), string_join_cons, String.append_assoc]
    | element el =>
        simp only [List.foldl_cons, List.filterMap_cons]
        rw [String.append_empty, ih acc]
    | empty =>
        simp only [List.foldl_cons, List.filterMap_cons]
        rw [String.append_empty, ih acc]

/-! ## Claims -/

/-- C1, counterexample: the claim says `clone()` yields a copy with an empty
listener list; on the concrete element `exElListener`, which has one
listener, the clone's listener list is not empty — `El::clone` copies
`self.listeners` instead of resetting it. -/
theorem claim1_counterexample : (El.clone exElListener).listeners ≠ [] := by
  simp [exElListener, El.clone]

/-- C1 (amended): for every Element, `clone()` copies the listener list
unchanged (in this embedding, where listener payloads are pure data,
element-wise `Listener::clone` is the identity); the listener list is not
reset to empty. -/
theorem clone_preserves_listeners :
    ∀ (Ms : Type) (el : El Ms), (El.clone el).listeners = el.listeners := by
  intro Ms el
  cases el
  simp [El.clone]

/-- C2: `map_msg f` keeps tag, attributes, style, live handle and namespace;
across the whole tree (recursively through all children) the listener
triggers are unchanged, the sequence of listener payloads is the original
sequence mapped through `f` — so `f` is applied exactly once per listener,
i.e. exactly N times for a tree with N listeners — and the child count is
preserved. -/
theorem map_msg_spec :
    ∀ (Ms Ms2 : Type) (f : Ms → Ms2) (el : El Ms),
      (el.map_msg f).tag = el.tag ∧
      (el.map_msg f).attrs = el.attrs ∧
      (el.map_msg f).style = el.style ∧
      (el.map_msg f).nodeWs = el.nodeWs ∧
      (el.map_msg f).nmspace = el.nmspace ∧
      (el.map_msg f).children.length = el.children.length ∧
      (el.map_msg f).listenerTriggers = el.listenerTriggers ∧
      (el.map_msg f).listenerMsgs = el.listenerMsgs.map f ∧
      el.countListeners = el.listenerMsgs.length := by
  intro Ms Ms2 f el
  refine ⟨?_, ?_, ?_, ?_, ?_, ?_,
    map_msg_listenerTriggers_el f el, map_msg_listenerMsgs_el f el,
    countListeners_eq_length_msgs_el el⟩
  all_goals cases el
  all_goals simp [El.map_msg, mapMsgList_length]

/-- C3: under the unique-keys invariant of the attribute and style maps, two
Elements are `eq` if and only if tag, attributes (as key-value sets), style,
listener triggers and namespace agree; and two Elements differing only in
children, or only in live handle, are `eq`. -/
theorem el_eq_spec :
    (∀ (Ms : Type) (a b : El Ms),
       (a.attrs.vals.map Prod.fst).Nodup → (b.attrs.vals.map Prod.fst).Nodup →
       (a.style.vals.map Prod.fst).Nodup → (b.style.vals.map Prod.fst).Nodup →
       (El.beq a b = true ↔
         (a.tag = b.tag ∧ a.attrs.vals.Perm b.attrs.vals ∧
          a.style.vals.Perm b.style.vals ∧
          a.listeners.map Listener.trigger = b.listeners.map Listener.trigger ∧
          a.nmspace = b.nmspace))) ∧
    (∀ (Ms : Type) (t : Tag) (ats : Attrs) (st : Style)
       (ls : List (Listener Ms)) (ch1 ch2 : List (Node Ms)) (nw : Option Nat)
       (ns : Option Namespace) (hk : LifecycleHooks Ms),
       (ats.vals.map Prod.fst).Nodup → (st.vals.map Prod.fst).Nodup →
       El.beq (El.mk t ats st ls ch1 nw ns hk) (El.mk t ats st ls ch2 nw ns hk) =
         true) ∧
    (∀ (Ms : Type) (t : Tag) (ats : Attrs) (st : Style)
       (ls : List (Listener Ms)) (ch : List (Node Ms)) (nw1 nw2 : Option Nat)
       (ns : Option Namespace) (hk : LifecycleHooks Ms),
       (ats.vals.map Prod.fst).Nodup → (st.vals.map Prod.fst).Nodup →
       El.beq (El.mk t ats st ls ch nw1 ns hk) (El.mk t ats st ls ch nw2 ns hk) =
         true) := by
  refine ⟨?_, ?_, ?_⟩
  · intro Ms a b ha hb hsa hsb
    simp only [El.beq, Attrs.beq, Style.beq, Bool.and_eq_true,
      decide_eq_true_eq]
    rw [indexMapBeq_iff_perm ha hb, indexMapBeq_iff_perm hsa hsb,
      listenersBeq_iff]
    tauto
  · intro Ms t ats st ls ch1 ch2 nw ns hk h1 h2
    simp [El.beq, Attrs.beq, Style.beq, indexMapBeq_refl h1,
      indexMapBeq_refl h2, listenersBeq_refl]
  · intro Ms t ats st ls ch nw1 nw2 ns hk h1 h2
    simp [El.beq, Attrs.beq, Style.beq, indexMapBeq_refl h1,
      indexMapBeq_refl h2, listenersBeq_refl]

/-- C3, witness: the equality invariance is applied at two concrete elements
that differ only in their children. -/
theorem el_eq_spec_witness :
    El.beq
      (El.mk (Tag.Std "div") ⟨[(At.Class, AtValue.Some "x")]⟩
        ⟨[("color", "red")]⟩ [⟨"click", (0 : Nat)⟩]
        [Node.text (Text.new "a")] (Option.some 1) Option.none ⟨[]⟩)
      (El.mk (Tag.Std "div") ⟨[(At.Class, AtValue.Some "x")]⟩
        ⟨[("color", "red")]⟩ [⟨"click", (0 : Nat)⟩]
        [] (Option.some 1) Option.none ⟨[]⟩) = true :=
  el_eq_spec.2.1 Nat (Tag.Std "div") ⟨[(At.Class, AtValue.Some "x")]⟩
    ⟨[("color", "red")]⟩ [⟨"click", (0 : Nat)⟩]
    [Node.text (Text.new "a")] [] (Option.some 1) Option.none ⟨[]⟩
    (by decide) (by decide)

/-- C4: `add_class(name)` appends a single space then `name` when the "class"
attribute holds a non-empty value, and sets the value to exactly `name` when
the attribute is absent or its value is the empty string; `"foo"` then
`"bar"` from scratch gives `"foo bar"`, and `""` then `"x"` gives `"x"`. -/
theorem add_class_spec :
    (∀ (Ms : Type) (el : El Ms) (name v : String),
       lookupAt At.Class el.attrs.vals = Option.some (AtValue.Some v) →
       v ≠ "" →
       lookupAt At.Class (el.add_class name).attrs.vals =
         Option.some (AtValue.Some (v ++ " " ++ name))) ∧
    (∀ (Ms : Type) (el : El Ms) (name : String),
       lookupAt At.Class el.attrs.vals = Option.none →
       lookupAt At.Class (el.add_class name).attrs.vals =
         Option.some (AtValue.Some name)) ∧
    (∀ (Ms : Type) (el : El Ms) (name : String),
       lookupAt At.Class el.attrs.vals = Option.some (AtValue.Some "") →
       lookupAt At.Class (el.add_class name).attrs.vals =
         Option.some (AtValue.Some name)) ∧
    (lookupAt At.Class
        ((((El.empty (Tag.Std "div") : El Nat).add_class "foo").add_class
            "bar").attrs.vals) =
      Option.some (AtValue.Some "foo bar")) ∧
    (lookupAt At.Class
        ((((El.empty (Tag.Std "div") : El Nat).add_class "").add_class
            "x").attrs.vals) =
      Option.some (AtValue.Some "x")) := by
  have key : ∀ (Ms : Type) (el : El Ms) (name : String),
      lookupAt At.Class (el.add_class name).attrs.vals =
        Option.some
          (match lookupAt At.Class el.attrs.vals with
           | Option.some v => classAndModify name v
           | Option.none => AtValue.Some name) := by
    intro Ms el name
    cases el
    simp only [El.add_class, El.attrs_mk, lookupAt]
    rw [indexMapGet_entryAndModifyOrInsert]
  refine ⟨?_, ?_, ?_, ?_, ?_⟩
  · intro Ms el name v hv hne
    rw [key, hv]
    have hempty : v.isEmpty = false := by
      rw [← Bool.not_eq_true, String.isEmpty_iff]
      exact hne
    simp [classAndModify, hempty]
  · intro Ms el name hv
    rw [key, hv]
  · intro Ms el name hv
    rw [key, hv]
    have h0 : "".isEmpty = true := rfl
    simp [classAndModify, h0, String.empty_append]
  · decide
  · decide

/-- C4, witness: `add_class "b"` on a concrete element whose "class"
attribute holds the non-empty value `"a"` appends a single space and `"b"`. -/
theorem add_class_spec_witness :
    lookupAt At.Class
        (((El.mk (Tag.Std "div") ⟨[(At.Class, AtValue.Some "a")]⟩ Style.empty
              [] [] Option.none Option.none
              (⟨[]⟩ : LifecycleHooks Nat)).add_class "b").attrs.vals) =
      Option.some (AtValue.Some ("a" ++ " " ++ "b")) :=
  add_class_spec.1 Nat
    (El.mk (Tag.Std "div") ⟨[(At.Class, AtValue.Some "a")]⟩ Style.empty
      [] [] Option.none Option.none ⟨[]⟩)
    "b" "a" (by decide) (by decide)

/-- C5: after `replace_text(s)` the text children of the element are exactly
one node carrying `s`, the non-text children are the original ones in their
original relative order, and the new text child is the last child; on the
spec's example `[Text "a", Element, Text "b"]` with `"c"` the children become
`[Element, Text "c"]`. -/
theorem replace_text_spec :
    (∀ (Ms : Type) (el : El Ms) (s : String),
      ((el.replace_text s).children.filter fun n => Node.is_text n) =
          [Node.new_text s] ∧
        ((el.replace_text s).children.filter fun n => !(Node.is_text n)) =
          (el.children.filter fun n => !(Node.is_text n)) ∧
        (el.replace_text s).children.getLast? =
          Option.some (Node.new_text s)) ∧
      ((El.mk (Tag.Std "div") Attrs.empty Style.empty []
            [Node.text (Text.new "a"),
              Node.element (El.empty (Tag.Std "span")),
              Node.text (Text.new "b")]
            Option.none Option.none
            (⟨[]⟩ : LifecycleHooks Nat)).replace_text "c").children =
        [Node.element (El.empty (Tag.Std "span")), Node.new_text "c"] := by
  constructor
  · intro Ms el s
    cases el with
    | mk t a st l c nw ns hk =>
      refine ⟨?_, ?_, ?_⟩
      · simp only [El.replace_text, El.children_mk, List.filter_append,
          List.filter_filter, Bool.and_not_self]
        simp [Node.new_text, Node.is_text, List.filter_false]
      · simp only [El.replace_text, El.children_mk, List.filter_append,
          List.filter_filter, Bool.and_self]
        simp [Node.new_text, Node.is_text]
      · simp only [El.replace_text, El.children_mk]
        exact List.getLast?_concat _
  · rfl

/-- C6: `strip_ws_nodes_from_self_and_children` leaves no live handle on the
element or on any descendant node, and running it a second time changes
nothing. -/
theorem strip_ws_spec :
    ∀ (Ms : Type) (el : El Ms),
      (el.strip_ws_nodes_from_self_and_children).noWsDeep = true ∧
        (el.strip_ws_nodes_from_self_and_children).strip_ws_nodes_from_self_and_children =
          el.strip_ws_nodes_from_self_and_children :=
  fun _ el => ⟨strip_noWsDeep_el el, strip_idem_el el⟩

/-- C7: for every Element, `clone()` resets the lifecycle hooks to the
default empty storage while the copy's tag, attributes and style are
unchanged and its children are deeply equal to the original children —
every field compared at every depth, recursively through all descendants —
up to the lifecycle hooks, which the recursive `Node::clone` also resets at
every level. -/
theorem clone_resets_hooks_spec :
    ∀ (Ms : Type) [DecidableEq Ms] (el : El Ms),
      (El.clone el).hooks = LifecycleHooks.new ∧
        (El.clone el).tag = el.tag ∧
        (El.clone el).attrs = el.attrs ∧
        (El.clone el).style = el.style ∧
        Node.deepEqSkipHooksList (El.clone el).children el.children = true := by
  intro Ms _ el
  cases el with
  | mk t a s l c nw ns hk =>
    refine ⟨?_, ?_, ?_, ?_, ?_⟩
    · simp [El.clone]
    · simp [El.clone]
    · simp [El.clone]
    · simp [El.clone]
    · simpa [El.clone] using clone_deepEq_list c

/-- C7, witness: the clone semantics applied to the concrete element
`exElListener`, whose lifecycle hooks are non-empty. -/
theorem clone_resets_hooks_witness :
    (El.clone exElListener).hooks = LifecycleHooks.new ∧
      Node.deepEqSkipHooksList (El.clone exElListener).children
        exElListener.children = true :=
  ⟨(clone_resets_hooks_spec Nat exElListener).1,
    (clone_resets_hooks_spec Nat exElListener).2.2.2.2⟩

/-- C8: `get_text` agrees everywhere with the specification's description —
the concatenation, in child order and with no separator, of the text of the
direct `Text` children, ignoring non-text children — and on the example
children `[Text "a", Element, Text "b"]` it returns `"ab"`. -/
theorem get_text_spec :
    (∀ (Ms : Type) (el : El Ms), el.get_text = el.getTextSpec) ∧
      (El.mk (Tag.Std "div") Attrs.empty Style.empty []
          [Node.text (Text.new "a"),
            Node.element (El.empty (Tag.Std "span")),
            Node.text (Text.new "b")]
          Option.none Option.none
          (⟨[]⟩ : LifecycleHooks Nat)).get_text = "ab" := by
  constructor
  · intro Ms el
    cases el with
    | mk t a st l c nw ns hk =>
      simp only [El.get_text, El.getTextSpec, El.children_mk]
      rw [getText_foldl c "", String.empty_append]
  · decide

/-- C9: `from_html` returns, in document order, exactly the nodes the
external bridge converts, silently skipping the ones it does not (it equals
`filterMap node_from_ws` on the parsed child list); on the parse of
`"<span>hi</span><!-- c -->"` it yields exactly one node, the span, with the
comment dropped. -/
theorem from_html_spec :
    (∀ (Ms : Type) (parsed : List WsParsedNode),
        @El.from_html Ms parsed = parsed.filterMap node_from_ws) ∧
      (@El.from_html Nat parsedSpanComment).length = 1 ∧
      @El.from_html Nat parsedSpanComment =
        [Node.element ((El.empty (Tag.Std "span")).add_text "hi")] := by
  have h1 : ∀ (Ms : Type) (parsed : List WsParsedNode),
      @El.from_html Ms parsed = parsed.filterMap node_from_ws := by
    intro Ms parsed
    rw [El.from_html, from_html_loop_eq, List.take_length]
    simp
  refine ⟨h1, ?_, ?_⟩
  · rw [h1]
    rfl
  · rw [h1]
    rfl

/-- C10: for every Element whose live handle is present, `clone()` copies the
handle into the copy rather than resetting it to `None`. -/
theorem clone_preserves_node_ws :
    ∀ (Ms : Type) (el : El Ms) (h : Nat),
      el.nodeWs = Option.some h → (El.clone el).nodeWs = Option.some h := by
  intro Ms el h hel
  cases el
  simpa [El.clone] using hel

/-- C10, witness: the live handle `7` of the concrete element `exElListener`
survives cloning. -/
theorem clone_preserves_node_ws_witness :
    (El.clone exElListener).nodeWs = Option.some 7 :=
  clone_preserves_node_ws Nat exElListener 7 rfl

end VDom
